import Mathlib

/-!
Verification of the event-scraper core (scraper.py): a shallow embedding of
the pure decision logic — the expiration filter, address validity predicate,
record-builder overlay, merge engine, chronological sorter, and the
description/date/time extraction scans — together with theorems checking the
specification's statements about them.

Strings are modelled as Lean `String` (sequences of Unicode code points, as
in Python).  Python's `str.strip`, `str.lower`, `int(...)` and the regular
expression character classes are modelled at the ASCII level (the only level
the scraper's token vocabulary exercises); this is noted at each definition.
Instants (`datetime`) are modelled as integer seconds on the proleptic
Gregorian timeline, with day 0 = 0001-01-01; `timedelta(days=n)` is
`n * 86400` seconds, and `datetime.now()` is an explicit parameter `now`.
-/

/-- ASCII whitespace, as `str.strip()` removes (Python also strips further
Unicode whitespace, which the scraped tokens do not contain). -/
def isAsciiWs (c : Char) : Bool :=
  c == ' ' || c == '\t' || c == '\n' || c == '\r' || c == '\x0b' || c == '\x0c'

/-- Both-ends whitespace strip on the character list. -/
def stripChars (cs : List Char) : List Char :=
  ((cs.dropWhile isAsciiWs).reverse.dropWhile isAsciiWs).reverse

/-- Model of Python `str.strip()`. -/
def pyStrip (s : String) : String :=
  String.mk (stripChars s.toList)

/-- Model of Python `str.lower()` (ASCII level). -/
def pyLower (s : String) : String :=
  String.mk (s.toList.map Char.toLower)

/-- Model of Python slicing `s[:n]`. -/
def pyTake (n : Nat) (s : String) : String :=
  String.mk (s.toList.take n)

/-- Does `cs` start with `needle`? -/
def charsStartWith : List Char → List Char → Bool
  | [], _ => true
  | _ :: _, [] => false
  | a :: as, b :: bs => a == b && charsStartWith as bs

/-- Does `cs` contain `needle` as a contiguous run? -/
def charsContain (needle : List Char) : List Char → Bool
  | [] => needle.isEmpty
  | c :: cs => charsStartWith needle (c :: cs) || charsContain needle cs

/-- Model of Python `needle in hay` on strings. -/
def strContains (hay needle : String) : Bool :=
  charsContain needle.toList hay.toList

/-- Digit tail of a Python integer literal: digits with single interior
underscores, accumulating the value (`int("1_2") = 12`, `int("1__2")` and
`int("1_")` raise). -/
def digitsVal : List Char → Nat → Option Nat
  | [], acc => some acc
  | '_' :: c :: cs, acc =>
      if c.isDigit then digitsVal cs (acc * 10 + (c.toNat - 48)) else none
  | ['_'], _ => none
  | c :: cs, acc =>
      if c.isDigit then digitsVal cs (acc * 10 + (c.toNat - 48)) else none

/-- A nonempty digit run (with underscore separators) as a number. -/
def pyNatDigits : List Char → Option Nat
  | c :: cs => if c.isDigit then digitsVal cs (c.toNat - 48) else none
  | [] => none

/-- Model of Python `int(s)` on strings: optional surrounding whitespace, an
optional sign, then decimal digits; anything else raises, modelled as `none`
(ASCII digits; Python also accepts Unicode decimal digits). -/
def pyInt (s : String) : Option Int :=
  match stripChars s.toList with
  | '+' :: rest => (pyNatDigits rest).map (fun n => (n : Int))
  | '-' :: rest => (pyNatDigits rest).map (fun n => -(n : Int))
  | rest => (pyNatDigits rest).map (fun n => (n : Int))

/-- Splitting on a separator character, accumulator holds the current piece
reversed; models Python `s.split(sep)`. -/
def splitCharAux (sep : Char) : List Char → List Char → List (List Char)
  | [], acc => [acc.reverse]
  | c :: cs, acc =>
      if c == sep then acc.reverse :: splitCharAux sep cs []
      else splitCharAux sep cs (c :: acc)

/-- Model of Python `s.split('/')`. -/
def splitSlash (s : String) : List String :=
  (splitCharAux '/' s.toList []).map String.mk

/-- Gregorian leap-year rule, as `datetime` implements it. -/
def leapYear (y : Nat) : Bool :=
  y % 4 == 0 && (y % 100 != 0 || y % 400 == 0)

/-- Days in a month, as `datetime` validates day-of-month (0 for an invalid
month index, unused once the month range is checked). -/
def monthLen (y m : Nat) : Nat :=
  match m with
  | 1 => 31
  | 2 => if leapYear y then 29 else 28
  | 3 => 31
  | 4 => 30
  | 5 => 31
  | 6 => 30
  | 7 => 31
  | 8 => 31
  | 9 => 30
  | 10 => 31
  | 11 => 30
  | 12 => 31
  | _ => 0

/-- Days of the non-leap year strictly before month `m`. -/
def cumDays (m : Nat) : Nat :=
  match m with
  | 1 => 0
  | 2 => 31
  | 3 => 59
  | 4 => 90
  | 5 => 120
  | 6 => 151
  | 7 => 181
  | 8 => 212
  | 9 => 243
  | 10 => 273
  | 11 => 304
  | 12 => 334
  | _ => 365

/-- Zero-based day of year of a calendar date. -/
def dayOfYear (y m d : Nat) : Nat :=
  cumDays m + (if 2 < m ∧ leapYear y then 1 else 0) + (d - 1)

/-- Leap years strictly before year `y` (of years 1..y-1). -/
def leapsBefore (y : Nat) : Nat :=
  (y - 1) / 4 + (y - 1) / 400 - (y - 1) / 100

/-- Day number of a date on the proleptic Gregorian timeline,
0001-01-01 = day 0 (the timeline `datetime` lives on). -/
def rataDie (y m d : Nat) : Nat :=
  365 * (y - 1) + leapsBefore y + dayOfYear y m d

/-- The instant (in seconds) of midnight of a date: `datetime(year, month, day)`. -/
def dateSec (y m d : Nat) : Nat :=
  86400 * rataDie y m d

/-- The date-string parse both `_is_event_expired` and `get_event_date`
perform: split on `'/'`, require exactly three parts, convert each with
`int(...)`, and build `datetime(year, month, day)` — which validates
1 ≤ year ≤ 9999, 1 ≤ month ≤ 12 and 1 ≤ day ≤ days-in-month, raising (here:
`none`) otherwise.  The parts arrive day-first: `DD/MM/YYYY`. -/
def parseEventDate (s : String) : Option (Nat × Nat × Nat) :=
  match splitSlash s with
  | [ds, ms, ys] =>
      match pyInt ds, pyInt ms, pyInt ys with
      | some d, some m, some y =>
          if 1 ≤ y ∧ y ≤ 9999 ∧ 1 ≤ m ∧ m ≤ 12 ∧ 1 ≤ d ∧
              d ≤ (monthLen y.toNat m.toNat : Int) then
            some (y.toNat, m.toNat, d.toNat)
          else none
      | _, _, _ => none
  | _ => none

/-- The event record built by `_get_event_cards_with_selenium` and persisted
to JSON: all fields are strings, absent modelled as `""` (the dictionary is
always created with every key present). -/
structure Event where
  id : String := ""
  title : String := ""
  detail_url : String := ""
  image_url : String := ""
  date : String := ""
  time : String := ""
  full_address : String := ""
  price : String := ""
  description : String := ""
  ticket_url : String := ""
  organizer : String := ""
  audience : String := ""
  scraped_at : String := ""
deriving DecidableEq

/-- A record with every field empty, base point for concrete examples. -/
def baseEvent : Event := {}

/-- `_is_event_expired`: parse the date as `DD/MM/YYYY`; unparsable or empty
dates are never expired; otherwise expired iff the event's midnight lies
strictly before `now` minus one day (`datetime.now() - timedelta(days=1)`). -/
def isEventExpired (e : Event) (now : Int) : Bool :=
  match parseEventDate e.date with
  | some (y, m, d) => decide ((dateSec y m d : Int) < now - 86400)
  | none => false

/-- `get_event_date`, the sort key of `scrape_events`: the parsed date's
midnight, or `datetime.now() + timedelta(days=365)` when the date is empty or
unparsable. -/
def getEventDate (now : Int) (e : Event) : Int :=
  match parseEventDate e.date with
  | some (y, m, d) => (dateSec y m d : Int)
  | none => now + 365 * 86400

/-- Insert into a list sorted ascending by `key`, before the first element of
equal or larger key (so an element inserted on top of equals precedes them). -/
def insertByKey (key : Event → Int) (e : Event) : List Event → List Event
  | [] => [e]
  | x :: xs =>
      if key e ≤ key x then e :: x :: xs else x :: insertByKey key e xs

/-- Stable ascending insertion sort by `key`.  `list.sort(key=...)` in Python
is a stable ascending sort; a stable sort's output is uniquely determined by
the key order, so this models it exactly. -/
def sortByKey (key : Event → Int) : List Event → List Event
  | [] => []
  | x :: xs => insertByKey key x (sortByKey key xs)

/-- `all_events.sort(key=get_event_date)`. -/
def sortEvents (now : Int) (l : List Event) : List Event :=
  sortByKey (getEventDate now) l

/-- The deduplication key `event.get('title', '').lower()` of `merge_events`. -/
def titleKey (e : Event) : String :=
  pyLower e.title

/-- The fresh-record loop of `merge_events`: `ids` and `titles` are the
accumulated lookup sets, `acc` the output so far.  A fresh record is skipped
when its non-empty id is a known id, or else when its lowercased title is a
known title; an accepted record is appended and both its id (even when empty,
as `existing_ids.add(event_id)` does) and its title key are added. -/
def mergeLoop : List String → List String → List Event → List Event → List Event
  | _, _, acc, [] => acc
  | ids, titles, acc, f :: rest =>
      if f.id ≠ "" ∧ f.id ∈ ids then mergeLoop ids titles acc rest
      else if titleKey f ∈ titles then mergeLoop ids titles acc rest
      else mergeLoop (f.id :: ids) (titleKey f :: titles) (acc ++ [f]) rest

/-- `merge_events(existing_events, new_events)`: seed the id set with the
non-empty ids and the title set with all lowercased titles of the persisted
records, then run the fresh-record loop on a copy of the persisted list. -/
def merge_events (existing newEvents : List Event) : List Event :=
  mergeLoop ((existing.filter (fun e => e.id ≠ "")).map (fun e => e.id))
    (existing.map titleKey) existing newEvents

/-- ASCII model of the regex word character class `\w` (Python's `re` also
counts further Unicode letters and digits, which these address texts do not
exercise in the boundary positions). -/
def isWordChar (c : Char) : Bool :=
  c.isAlphanum || c == '_'

/-- Is the (optional) character before a match position a word character? -/
def wordCharOpt : Option Char → Bool
  | none => false
  | some c => isWordChar c

/-- Scan for the regex `\b\d{5}\b`: five decimal digits with no word
character immediately before or after.  `prev` is the character preceding the
current position (`none` at the start of the string). -/
def postalScan : Option Char → List Char → Bool
  | _, [] => false
  | prev, c1 :: rest =>
      (match rest with
       | c2 :: c3 :: c4 :: c5 :: rest2 =>
           !wordCharOpt prev && c1.isDigit && c2.isDigit && c3.isDigit &&
             c4.isDigit && c5.isDigit &&
             (match rest2 with
              | [] => true
              | r :: _ => !isWordChar r)
       | _ => false)
      || postalScan (some c1) rest

/-- `re.search(r'\b\d{5}\b', text)` as a Boolean. -/
def hasPostal (s : String) : Bool :=
  postalScan none s.toList

/-- The street-type vocabulary of `_is_valid_address`. -/
def streetIndicators : List String :=
  ["rue", "avenue", "boulevard", "place", "route", "allée", "impasse",
   "chemin", "square"]

/-- The regional city vocabulary of `_is_valid_address`. -/
def regionCities : List String :=
  ["le havre", "havre", "etretat", "montivilliers", "gonfreville", "harfleur"]

/-- `_is_valid_address`: reject empty or shorter-than-10 text; then require
(street token or 5-digit postal code) and (5-digit postal code or city name)
and length below 200.  The street and city searches run on the lowercased
text; the postal search on the text as given.  (The function also computes a
street-number match the return value never uses.) -/
def is_valid_address (t : String) : Bool :=
  if t = "" ∨ t.length < 10 then false
  else
    (streetIndicators.any (fun ind => strContains (pyLower t) ind)
        || hasPostal t)
      && (hasPostal t
        || regionCities.any (fun c => strContains (pyLower t) c))
      && decide (t.length < 200)

/-- The claim's reading of the validity predicate, with the length strictly
between 10 and 200 (spec: "length is in (10, 200)"); for comparison with
`is_valid_address`. -/
def claimValidAddress (t : String) : Prop :=
  10 < t.length ∧ t.length < 200 ∧
    (streetIndicators.any (fun ind => strContains (pyLower t) ind) = true
      ∨ hasPostal t = true) ∧
    (hasPostal t = true
      ∨ regionCities.any (fun c => strContains (pyLower t) c) = true)

instance (t : String) : Decidable (claimValidAddress t) := by
  unfold claimValidAddress; infer_instance

/-- The validity predicate as the code computes it, with the lower length
bound inclusive: the amended form of the claim. -/
def amendedValidAddress (t : String) : Prop :=
  10 ≤ t.length ∧ t.length < 200 ∧
    (streetIndicators.any (fun ind => strContains (pyLower t) ind) = true
      ∨ hasPostal t = true) ∧
    (hasPostal t = true
      ∨ regionCities.any (fun c => strContains (pyLower t) c) = true)

/-- The detail-extraction result of `_get_popup_details`: a dictionary that
can only carry these five keys, each present (`some`) or absent (`none`). -/
structure Details where
  date : Option String := none
  time : Option String := none
  full_address : Option String := none
  price : Option String := none
  description : Option String := none
deriving DecidableEq

/-- One field of the overlay loop `for key, value in popup_details.items():
if value: event[key] = value` — a present, non-empty (truthy) detail value
replaces the listing value; an absent or empty one leaves it unchanged. -/
def overlayField (old : String) : Option String → String
  | none => old
  | some v => if v = "" then old else v

/-- The record-builder overlay of `scrape_events`: the listing-entry record
updated by the truthy fields of the detail result. -/
def buildEvent (e : Event) (d : Details) : Event :=
  { e with
    date := overlayField e.date d.date,
    time := overlayField e.time d.time,
    full_address := overlayField e.full_address d.full_address,
    price := overlayField e.price d.price,
    description := overlayField e.description d.description }

/-- The description scan of `_get_popup_details`: candidate text blocks in
selector-major order; the first whose stripped text exceeds 50 characters is
taken, truncated to 500 characters (`text[:500]`); otherwise absent. -/
def extractDescription : List String → Option String
  | [] => none
  | t :: rest =>
      if (pyStrip t).length > 50 then some (pyTake 500 (pyStrip t))
      else extractDescription rest

/-- Take exactly `n` decimal digits from the front. -/
def takeDigits : Nat → List Char → Option (List Char × List Char)
  | 0, cs => some ([], cs)
  | _ + 1, [] => none
  | n + 1, c :: cs =>
      if c.isDigit then (takeDigits n cs).map (fun p => (c :: p.1, p.2))
      else none

/-- Take one separator character satisfying `p` from the front. -/
def takeSep (p : Char → Bool) : List Char → Option (Char × List Char)
  | [] => none
  | c :: cs => if p c then some (c, cs) else none

/-- A date separator of the regex `[/\-]`. -/
def dateSep (c : Char) : Bool := c == '/' || c == '-'

/-- A time separator of the regex `[h:]`. -/
def timeSep (c : Char) : Bool := c == 'h' || c == ':'

/-- Try `\d{dn}[/\-]\d{mn}[/\-]\d{4}` at the head, returning the matched
characters. -/
def tryDateDM (dn mn : Nat) (cs : List Char) : Option (List Char) := do
  let (d, r1) ← takeDigits dn cs
  let (s1, r2) ← takeSep dateSep r1
  let (m, r3) ← takeDigits mn r2
  let (s2, r4) ← takeSep dateSep r3
  let (y, _) ← takeDigits 4 r4
  pure (d ++ s1 :: m ++ s2 :: y)

/-- The regex `\d{1,2}[/\-]\d{1,2}[/\-]\d{4}` at the head: greedy `\d{1,2}`
backtracks from two digits to one, the day quantifier being outermost. -/
def tryDateAt (cs : List Char) : Option (List Char) :=
  (tryDateDM 2 2 cs).orElse fun _ =>
    (tryDateDM 2 1 cs).orElse fun _ =>
      (tryDateDM 1 2 cs).orElse fun _ => tryDateDM 1 1 cs

/-- Leftmost match of the date regex: try every start position left to
right (`re.search` semantics). -/
def scanDate : List Char → Option (List Char)
  | [] => none
  | c :: cs =>
      match tryDateAt (c :: cs) with
      | some t => some t
      | none => scanDate cs

/-- Try `\d{dn}[h:]\d{2}` at the head, returning the matched characters. -/
def tryTimeH (dn : Nat) (cs : List Char) : Option (List Char) := do
  let (h, r1) ← takeDigits dn cs
  let (s1, r2) ← takeSep timeSep r1
  let (m, _) ← takeDigits 2 r2
  pure (h ++ s1 :: m)

/-- The regex `\d{1,2}[h:]\d{2}` at the head, greedy hour first. -/
def tryTimeAt (cs : List Char) : Option (List Char) :=
  (tryTimeH 2 cs).orElse fun _ => tryTimeH 1 cs

/-- Leftmost match of the time regex. -/
def scanTime : List Char → Option (List Char)
  | [] => none
  | c :: cs =>
      match tryTimeAt (c :: cs) with
      | some t => some t
      | none => scanTime cs

/-- First `DD[/\-]MM[/\-]YYYY`-shaped token of a text block, as matched
(not yet normalized). -/
def findDate (s : String) : Option String :=
  (scanDate s.toList).map String.mk

/-- First `HH[h:]MM`-shaped token of a text block, as matched. -/
def findTime (s : String) : Option String :=
  (scanTime s.toList).map String.mk

/-- `date_match.group(1).replace('-', '/')`. -/
def normDate (s : String) : String :=
  String.mk (s.toList.map (fun c => if c = '-' then '/' else c))

/-- `time_match.group(1).replace('h', ':')`. -/
def normTime (s : String) : String :=
  String.mk (s.toList.map (fun c => if c = 'h' then ':' else c))

/-- The date/time scan of `_get_popup_details`: candidate text blocks in
selector-major order; each block is searched for a date token and a time
token; the scan stops at the first block yielding either, storing whatever
that block yielded (normalized). -/
def extractDateTime : List String → Option String × Option String
  | [] => (none, none)
  | b :: rest =>
      if (findDate b).isSome || (findTime b).isSome then
        ((findDate b).map normDate, (findTime b).map normTime)
      else extractDateTime rest

/-- `scrape_events`, the pipeline orchestrator, over its external inputs:
the persisted records (as loaded, before the load-time expiration filter),
the listing entries the rendering layer discovered, and the per-entry detail
extraction result.  Loading filters out expired records; with no listing
entries the filtered persisted set is returned as-is; otherwise the first
`maxEvents` entries are built (listing fields overlaid with detail fields — a
failed detail fetch is an all-`none` `Details`), merged after the persisted
records and sorted by date. -/
def scrape_events (persisted listing : List Event) (details : Event → Details)
    (now : Int) (maxEvents : Nat) : List Event :=
  let existing := persisted.filter (fun e => !isEventExpired e now)
  if listing = [] then existing
  else
    sortEvents now (merge_events existing
      ((listing.take maxEvents).map (fun ev => buildEvent ev (details ev))))


/-- Strict lexicographic order on (year, month, day) triples. -/
def lexLtDate (a b : Nat × Nat × Nat) : Prop :=
  a.1 < b.1 ∨ (a.1 = b.1 ∧ (a.2.1 < b.2.1 ∨ (a.2.1 = b.2.1 ∧ a.2.2 < b.2.2)))

/-- Lexicographic order on (year, month, day) triples. -/
def lexLeDate (a b : Nat × Nat × Nat) : Prop :=
  a.1 < b.1 ∨ (a.1 = b.1 ∧ (a.2.1 < b.2.1 ∨ (a.2.1 = b.2.1 ∧ a.2.2 ≤ b.2.2)))

theorem mergeLoop_all_dup (F : List Event) :
    ∀ ids titles acc,
      (∀ f ∈ F, (f.id ≠ "" ∧ f.id ∈ ids) ∨ titleKey f ∈ titles) →
      mergeLoop ids titles acc F = acc := by
  induction F with
  | nil => intro ids titles acc _; rfl
  | cons f rest ih =>
    intro ids titles acc h
    have hf := h f (by simp)
    rw [mergeLoop]
    split_ifs with h1 h2
    · exact ih ids titles acc (fun g hg => h g (by simp [hg]))
    · exact ih ids titles acc (fun g hg => h g (by simp [hg]))
    · rcases hf with hl | hr
      · exact absurd hl h1
      · exact absurd hr h2

theorem mergeLoop_spec (F : List Event) :
    ∀ ids titles acc, ∃ A,
      mergeLoop ids titles acc F = acc ++ A ∧ A.Sublist F ∧
      (∀ a ∈ A, titleKey a ∉ titles) ∧
      A.Pairwise (fun a b => titleKey a ≠ titleKey b) := by
  induction F with
  | nil =>
    intro ids titles acc
    exact ⟨[], by simp [mergeLoop], List.nil_sublist _, by simp, List.Pairwise.nil⟩
  | cons f rest ih =>
    intro ids titles acc
    rw [mergeLoop]
    split_ifs with h1 h2
    · obtain ⟨A, hEq, hSub, hT, hP⟩ := ih ids titles acc
      exact ⟨A, hEq, hSub.cons f, hT, hP⟩
    · obtain ⟨A, hEq, hSub, hT, hP⟩ := ih ids titles acc
      exact ⟨A, hEq, hSub.cons f, hT, hP⟩
    · obtain ⟨A, hEq, hSub, hT, hP⟩ := ih (f.id :: ids) (titleKey f :: titles) (acc ++ [f])
      refine ⟨f :: A, by rw [hEq]; simp, hSub.cons₂ f, ?_, ?_⟩
      · intro a ha
        rcases List.mem_cons.mp ha with rfl | ha'
        · exact h2
        · exact fun hc => hT a ha' (List.mem_cons_of_mem _ hc)
      · refine List.Pairwise.cons ?_ hP
        intro a ha hc
        exact hT a ha (by rw [hc]; exact List.mem_cons_self _ _)

theorem pairwise_ne_filter_le_one (c : String) :
    ∀ l : List Event, l.Pairwise (fun a b => titleKey a ≠ titleKey b) →
      (l.filter (fun a => titleKey a == c)).length ≤ 1 := by
  intro l hl
  induction l with
  | nil => simp
  | cons a t ih =>
    rw [List.pairwise_cons] at hl
    obtain ⟨ha, ht⟩ := hl
    rw [List.filter_cons]
    by_cases hac : (titleKey a == c) = true
    · rw [if_pos hac]
      have : t.filter (fun b => titleKey b == c) = [] := by
        rw [List.filter_eq_nil_iff]
        intro b hb hbc
        exact ha b hb (by
          have h1 : titleKey a = c := by simpa using hac
          have h2 : titleKey b = c := by simpa using hbc
          rw [h1, h2])
      simp [this]
    · rw [if_neg hac]
      exact ih ht

/-- C2: merging a record set with itself (fresh = persisted = S) returns S
unchanged: every fresh record is recognized as a duplicate, by its non-empty
id or by its lowercased title. -/
theorem c2_merge_idempotent (S : List Event) : merge_events S S = S := by
  unfold merge_events
  exact mergeLoop_all_dup S _ _ S
    (fun f hf => Or.inr (List.mem_map_of_mem titleKey hf))

/-- C3: the merge output is the persisted records, unmodified and in their
original order, followed by the accepted fresh records in encounter order (a
sublist of the fresh list); no persisted record is reordered, dropped or
altered. -/
theorem c3_merge_frame (P F : List Event) :
    ∃ A, merge_events P F = P ++ A ∧ A.Sublist F := by
  obtain ⟨A, hEq, hSub, _, _⟩ := mergeLoop_spec F
    ((P.filter (fun e => e.id ≠ "")).map (fun e => e.id)) (P.map titleKey) P
  exact ⟨A, hEq, hSub⟩

/-- C10: id-deduplication applies only to non-empty ids — a fresh record with
an empty id is accepted whenever its title is new, and two empty-id fresh
records with distinct titles are both accepted — while title-deduplication
applies to every title, the empty one included: every accepted fresh record's
lowercased title differs from all persisted titles and from all other
accepted titles, so at most one empty-titled record is accepted per merge. -/
theorem c10_dedup_policy :
    (∀ (P : List Event) (f : Event), f.id = "" →
        titleKey f ∉ P.map titleKey → merge_events P [f] = P ++ [f])
  ∧ (∀ e1 e2 : Event, e1.id = "" → e2.id = "" → titleKey e1 ≠ titleKey e2 →
        merge_events [] [e1, e2] = [e1, e2])
  ∧ (∀ P F : List Event, ∃ A, merge_events P F = P ++ A
        ∧ (∀ a ∈ A, titleKey a ∉ P.map titleKey)
        ∧ A.Pairwise (fun a b => titleKey a ≠ titleKey b)
        ∧ (A.filter (fun a => titleKey a == "")).length ≤ 1) := by
  refine ⟨?_, ?_, ?_⟩
  · intro P f hid ht
    unfold merge_events
    rw [mergeLoop]
    rw [if_neg (by simp [hid]), if_neg ht]
    rfl
  · intro e1 e2 h1 h2 hne
    unfold merge_events
    rw [mergeLoop]
    rw [if_neg (by simp), if_neg (by simp)]
    rw [mergeLoop]
    rw [if_neg (by simp [h2]), if_neg (by simpa using fun h => hne h.symm)]
    rfl
  · intro P F
    obtain ⟨A, hEq, _, hT, hP⟩ := mergeLoop_spec F
      ((P.filter (fun e => e.id ≠ "")).map (fun e => e.id)) (P.map titleKey) P
    exact ⟨A, hEq, hT, hP, pairwise_ne_filter_le_one "" A hP⟩

/-- C7: with no listing entries discovered, the run returns the
expiration-filtered persisted set unchanged — no merge, no sort, no error. -/
theorem c7_no_listing (persisted : List Event) (details : Event → Details)
    (now : Int) (maxEvents : Nat) :
    scrape_events persisted [] details now maxEvents
      = persisted.filter (fun e => !isEventExpired e now) := by
  simp [scrape_events]

theorem overlayField_cases (old : String) (o : Option String) :
    (∀ v, o = some v → v ≠ "" → overlayField old o = v)
  ∧ ((o = none ∨ o = some "") → overlayField old o = old)
  ∧ (old ≠ "" → overlayField old o ≠ "") := by
  rcases o with _ | v
  · exact ⟨(fun v hv => nomatch hv), fun _ => rfl, fun h => h⟩
  · by_cases hv : v = ""
    · subst hv
      refine ⟨?_, fun _ => by simp [overlayField], ?_⟩
      · intro w hw hne
        cases hw
        exact absurd rfl hne
      · intro h
        simpa [overlayField] using h
    · refine ⟨?_, ?_, ?_⟩
      · intro w hw _
        cases hw
        simp [overlayField, hv]
      · intro h
        rcases h with h | h
        · cases h
        · cases h; exact absurd rfl hv
      · intro _
        simp [overlayField, hv]

/-- C6: the record-builder overlay is right-biased and empty-skipping: every
field present and non-empty in the detail result replaces the listing value,
every field absent or empty keeps the listing value, the fields the detail
result cannot carry are untouched, and a non-empty listing field is never
overwritten with an empty value. -/
theorem c6_overlay (e : Event) (d : Details) :
    ((∀ v, d.date = some v → v ≠ "" → (buildEvent e d).date = v)
      ∧ ((d.date = none ∨ d.date = some "") → (buildEvent e d).date = e.date)
      ∧ (e.date ≠ "" → (buildEvent e d).date ≠ ""))
  ∧ ((∀ v, d.time = some v → v ≠ "" → (buildEvent e d).time = v)
      ∧ ((d.time = none ∨ d.time = some "") → (buildEvent e d).time = e.time)
      ∧ (e.time ≠ "" → (buildEvent e d).time ≠ ""))
  ∧ ((∀ v, d.full_address = some v → v ≠ "" → (buildEvent e d).full_address = v)
      ∧ ((d.full_address = none ∨ d.full_address = some "") →
          (buildEvent e d).full_address = e.full_address)
      ∧ (e.full_address ≠ "" → (buildEvent e d).full_address ≠ ""))
  ∧ ((∀ v, d.price = some v → v ≠ "" → (buildEvent e d).price = v)
      ∧ ((d.price = none ∨ d.price = some "") → (buildEvent e d).price = e.price)
      ∧ (e.price ≠ "" → (buildEvent e d).price ≠ ""))
  ∧ ((∀ v, d.description = some v → v ≠ "" → (buildEvent e d).description = v)
      ∧ ((d.description = none ∨ d.description = some "") →
          (buildEvent e d).description = e.description)
      ∧ (e.description ≠ "" → (buildEvent e d).description ≠ ""))
  ∧ (buildEvent e d).id = e.id ∧ (buildEvent e d).title = e.title
  ∧ (buildEvent e d).detail_url = e.detail_url
  ∧ (buildEvent e d).image_url = e.image_url
  ∧ (buildEvent e d).ticket_url = e.ticket_url
  ∧ (buildEvent e d).organizer = e.organizer
  ∧ (buildEvent e d).audience = e.audience
  ∧ (buildEvent e d).scraped_at = e.scraped_at :=
  ⟨overlayField_cases e.date d.date, overlayField_cases e.time d.time,
    overlayField_cases e.full_address d.full_address,
    overlayField_cases e.price d.price,
    overlayField_cases e.description d.description,
    rfl, rfl, rfl, rfl, rfl, rfl, rfl, rfl⟩

/-- C1: the expiration filter returns true iff the record's date parses as
`DD/MM/YYYY` (the code's parse: three `/`-separated integer fields forming a
valid calendar date) with the parsed date strictly earlier than `now` minus
one day; an empty date (as when the field is absent) gives false, and an
unparsable one gives false because the parse yields `none`. -/
theorem c1_expiration (e : Event) (now : Int) :
    (isEventExpired e now = true ↔
      ∃ y m d, parseEventDate e.date = some (y, m, d)
        ∧ (dateSec y m d : Int) < now - 86400)
  ∧ isEventExpired { e with date := "" } now = false := by
  constructor
  · unfold isEventExpired
    rcases hp : parseEventDate e.date with _ | ⟨⟨y, m, d⟩⟩
    · simp [hp]
    · simp only [hp, decide_eq_true_eq, Option.some.injEq, Prod.mk.injEq]
      constructor
      · intro h
        exact ⟨y, m, d, ⟨rfl, rfl, rfl⟩, h⟩
      · rintro ⟨y1, m1, d1, ⟨rfl, rfl, rfl⟩, h⟩
        exact h
  · have h0 : parseEventDate "" = none := rfl
    simp [isEventExpired, h0]

/-- C5 counterexample: the ten-character text "rue, havre" (a street token
and a city token, length exactly 10) is accepted by the code, but the claim's
"length strictly between 10 and 200" excludes it: the code's lower length
bound is inclusive (`len(text) < 10` rejects). -/
theorem c5_address_counterexample :
    is_valid_address "rue, havre" = true
      ∧ ¬ claimValidAddress "rue, havre"
      ∧ ("rue, havre").length = 10 := by
  refine ⟨by decide, by decide, by decide⟩

/-- C5 amended: the address validity predicate returns true iff the text's
length is at least 10 (inclusive) and strictly below 200, the text contains a
street-type token or a 5-digit postal code, and it contains a 5-digit postal
code or a known city-name token; in particular any text of 200 or more
characters (such as a 250-character block with a postal code) is rejected,
and the predicate is a total function (never raises). -/
theorem c5_address_amended (t : String) :
    is_valid_address t = true ↔ amendedValidAddress t := by
  unfold is_valid_address amendedValidAddress
  by_cases h0 : t = "" ∨ t.length < 10
  · rw [if_pos h0]
    simp only [Bool.false_eq_true, false_iff]
    rintro ⟨hlen, _⟩
    rcases h0 with rfl | hlt
    · simp at hlen
    · omega
  · rw [if_neg h0]
    push_neg at h0
    obtain ⟨hne, hlen⟩ := h0
    simp only [Bool.and_eq_true, Bool.or_eq_true, decide_eq_true_eq]
    constructor
    · rintro ⟨⟨hsp, hpc⟩, hl⟩
      exact ⟨hlen, hl, hsp, hpc⟩
    · rintro ⟨_, hl, hsp, hpc⟩
      exact ⟨⟨hsp, hpc⟩, hl⟩

/-- The length of a truncated string. -/
theorem pyTake_length (n : Nat) (s : String) :
    (pyTake n s).length = min n s.length :=
  List.length_take n s.toList

/-- C8 counterexample: a candidate block of 40 characters (at least 30, free
of any boilerplate keyword) is NOT accepted by the code — the code's
threshold is strictly more than 50 characters, and it applies no
boilerplate-keyword exclusion at all. -/
theorem c8_description_counterexample :
    extractDescription [String.mk (List.replicate 40 'a')] = none
      ∧ (pyStrip (String.mk (List.replicate 40 'a'))).length = 40 := by
  refine ⟨by decide, by decide⟩

/-- C8 amended: the description extractor accepts the first candidate text
block whose stripped text exceeds 50 characters — with no boilerplate-keyword
exclusion — returns it truncated to 500 characters, and returns absent
(without raising) exactly when no block qualifies. -/
theorem c8_description_amended (blocks : List String) :
    (extractDescription blocks = none ↔ ∀ t ∈ blocks, (pyStrip t).length ≤ 50)
  ∧ (∀ dsc, extractDescription blocks = some dsc →
      ∃ l1 t l2, blocks = l1 ++ t :: l2
        ∧ (∀ u ∈ l1, (pyStrip u).length ≤ 50)
        ∧ 50 < (pyStrip t).length
        ∧ dsc = pyTake 500 (pyStrip t)
        ∧ dsc.length ≤ 500) := by
  induction blocks with
  | nil => exact ⟨by simp [extractDescription], fun dsc h => nomatch h⟩
  | cons b rest ih =>
    by_cases hb : 50 < (pyStrip b).length
    · constructor
      · rw [extractDescription, if_pos hb]
        constructor
        · intro h
          exact absurd h (by simp)
        · intro hall
          exact absurd (hall b (by simp)) (by omega)
      · intro dsc h
        rw [extractDescription, if_pos hb] at h
        injection h with h'
        subst h'
        refine ⟨[], b, rest, rfl, by simp, hb, rfl, ?_⟩
        have := pyTake_length 500 (pyStrip b)
        omega
    · constructor
      · rw [extractDescription, if_neg hb]
        rw [ih.1]
        constructor
        · intro hall
          intro t ht
          rcases List.mem_cons.mp ht with rfl | ht'
          · omega
          · exact hall t ht'
        · intro hall t ht
          exact hall t (List.mem_cons_of_mem _ ht)
      · intro dsc h
        rw [extractDescription, if_neg hb] at h
        obtain ⟨l1, t, l2, hEq, hPre, hGt, hVal, hLen⟩ := ih.2 dsc h
        exact ⟨b :: l1, t, l2, by rw [hEq]; rfl, by
          intro u hu
          rcases List.mem_cons.mp hu with rfl | hu'
          · omega
          · exact hPre u hu', hGt, hVal, hLen⟩

/-- C9 counterexample: with candidate blocks "18h30 doors" then
"12/06/2025", the scan stops at the first block (it yields a time), so the
date stays absent even though the next block contains a date-shaped token —
the two fields are NOT found independently across the scanned sequence. -/
theorem c9_datetime_counterexample :
    extractDateTime ["18h30 doors", "12/06/2025"] = (none, some "18:30")
      ∧ findDate "12/06/2025" = some "12/06/2025" := by
  refine ⟨by decide, by decide⟩

/-- C9 amended: the scan visits the candidate blocks in order and stops at
the first block yielding a date-shaped or a time-shaped token; within that
one block the two fields are independent — the date field becomes the block's
first `DD/MM/YYYY` or `DD-MM-YYYY`-shaped token with `-` normalized to `/`,
and the time field its first `HH:MM` or `HHhMM`-shaped token with `h`
normalized to `:` — but a block yielding only one of the fields ends the
scan, leaving the other field absent even when a later block contains it. -/
theorem c9_datetime_amended (blocks : List String) :
    (extractDateTime blocks = (none, none)
        ∧ ∀ b ∈ blocks, findDate b = none ∧ findTime b = none)
  ∨ (∃ l1 b l2, blocks = l1 ++ b :: l2
      ∧ (∀ u ∈ l1, findDate u = none ∧ findTime u = none)
      ∧ ((findDate b).isSome ∨ (findTime b).isSome)
      ∧ extractDateTime blocks
          = ((findDate b).map normDate, (findTime b).map normTime)) := by
  induction blocks with
  | nil => exact Or.inl ⟨rfl, by simp⟩
  | cons b rest ih =>
    by_cases hb : ((findDate b).isSome || (findTime b).isSome : Bool) = true
    · refine Or.inr ⟨[], b, rest, rfl, by simp, ?_, ?_⟩
      · simpa using hb
      · rw [extractDateTime, if_pos hb]
    · have hbd : findDate b = none := by
        rcases hd : findDate b with _ | v
        · rfl
        · exact absurd (by simp [hd]) hb
      have hbt : findTime b = none := by
        rcases ht : findTime b with _ | v
        · rfl
        · exact absurd (by simp [ht]) hb
      rcases ih with ⟨h1, h2⟩ | ⟨l1, c, l2, hEq, hNone, hSome, hRes⟩
      · refine Or.inl ⟨?_, ?_⟩
        · rw [extractDateTime, if_neg hb]
          exact h1
        · intro u hu
          rcases List.mem_cons.mp hu with rfl | hu'
          · exact ⟨hbd, hbt⟩
          · exact h2 u hu'
      · refine Or.inr ⟨b :: l1, c, l2, by rw [hEq]; rfl, ?_, hSome, ?_⟩
        · intro u hu
          rcases List.mem_cons.mp hu with rfl | hu'
          · exact ⟨hbd, hbt⟩
          · exact hNone u hu'
        · rw [extractDateTime, if_neg hb]
          exact hRes

theorem insertByKey_perm (key : Event → Int) (e : Event) :
    ∀ t : List Event, List.Perm (insertByKey key e t) (e :: t) := by
  intro t
  induction t with
  | nil => exact List.Perm.refl _
  | cons x xs ih =>
    rw [insertByKey]
    split_ifs with h
    · exact List.Perm.refl _
    · exact (ih.cons x).trans (List.Perm.swap e x xs)

theorem sortByKey_perm (key : Event → Int) :
    ∀ l : List Event, List.Perm (sortByKey key l) l := by
  intro l
  induction l with
  | nil => exact List.Perm.refl _
  | cons x xs ih =>
    rw [sortByKey]
    exact (insertByKey_perm key x (sortByKey key xs)).trans (ih.cons x)

theorem insertByKey_sorted (key : Event → Int) (e : Event) :
    ∀ t : List Event, t.Pairwise (fun a b => key a ≤ key b) →
      (insertByKey key e t).Pairwise (fun a b => key a ≤ key b) := by
  intro t
  induction t with
  | nil =>
    intro _
    simp [insertByKey]
  | cons x xs ih =>
    intro h
    rw [List.pairwise_cons] at h
    obtain ⟨hx, hxs⟩ := h
    rw [insertByKey]
    split_ifs with hle
    · refine List.Pairwise.cons ?_ (List.Pairwise.cons hx hxs)
      intro b hb
      rcases List.mem_cons.mp hb with rfl | hb'
      · exact hle
      · exact le_trans hle (hx b hb')
    · refine List.Pairwise.cons ?_ (ih hxs)
      intro b hb
      rcases List.mem_cons.mp ((insertByKey_perm key e xs).mem_iff.mp hb) with rfl | hb2
      · exact le_of_lt (lt_of_not_le hle)
      · exact hx b hb2

theorem sortByKey_sorted (key : Event → Int) :
    ∀ l : List Event, (sortByKey key l).Pairwise (fun a b => key a ≤ key b) := by
  intro l
  induction l with
  | nil => exact List.Pairwise.nil
  | cons x xs ih =>
    rw [sortByKey]
    exact insertByKey_sorted key x (sortByKey key xs) ih

theorem insertByKey_filter (key : Event → Int) (p : Event → Bool) (k : Int)
    (hp : ∀ a, p a = true → key a = k) (e : Event) :
    ∀ t : List Event, (insertByKey key e t).filter p
      = if p e then e :: t.filter p else t.filter p := by
  intro t
  induction t with
  | nil => simp [insertByKey, List.filter_cons]
  | cons x xs ih =>
    rw [insertByKey]
    by_cases hle : key e ≤ key x
    · rw [if_pos hle, List.filter_cons]
    · rw [if_neg hle, List.filter_cons, ih]
      rw [show (x :: xs).filter p = if p x then x :: xs.filter p else xs.filter p
        from List.filter_cons]
      by_cases hpe : p e = true <;> by_cases hpx : p x = true
      · exact absurd (le_of_eq (by rw [hp e hpe, hp x hpx])) hle
      · simp [hpe, hpx]
      · simp [hpe, hpx]
      · simp [hpe, hpx]

theorem sortByKey_filter (key : Event → Int) (p : Event → Bool) (k : Int)
    (hp : ∀ a, p a = true → key a = k) :
    ∀ l : List Event, (sortByKey key l).filter p = l.filter p := by
  intro l
  induction l with
  | nil => rfl
  | cons x xs ih =>
    rw [sortByKey, insertByKey_filter key p k hp x, ih, List.filter_cons]

theorem leapsBefore_succ (y : Nat) (hy : 1 ≤ y) :
    leapsBefore (y + 1) = leapsBefore y + (if leapYear y then 1 else 0) := by
  obtain ⟨z, rfl⟩ : ∃ z, y = z + 1 := ⟨y - 1, by omega⟩
  unfold leapsBefore
  simp only [Nat.add_sub_cancel]
  have h4 := Nat.succ_div z 4
  have h100 := Nat.succ_div z 100
  have h400 := Nat.succ_div z 400
  have hA : z / 100 ≤ z / 4 := Nat.div_le_div_left (by norm_num) (by norm_num)
  have hB : (z + 1) / 100 ≤ (z + 1) / 4 :=
    Nat.div_le_div_left (by norm_num) (by norm_num)
  have hleap : leapYear (z + 1) = true ↔
      ((z + 1) % 4 = 0 ∧ ((z + 1) % 100 ≠ 0 ∨ (z + 1) % 400 = 0)) := by
    simp [leapYear]
  by_cases d4 : 4 ∣ (z + 1) <;> by_cases d100 : 100 ∣ (z + 1) <;>
    by_cases d400 : 400 ∣ (z + 1) <;>
    (simp only [d4, d100, d400, if_true, if_false, if_pos, if_neg,
       not_false_iff] at h4 h100 h400
     cases hb : leapYear (z + 1) <;>
     simp only [hb, Bool.true_eq_false, Bool.false_eq_true, false_iff,
       true_iff, if_true, if_false] at hleap ⊢ <;>
     omega)

theorem dayOfYear_le (y m d : Nat) (hm1 : 1 ≤ m) (hm2 : m ≤ 12) (hd1 : 1 ≤ d)
    (hd2 : d ≤ monthLen y m) :
    dayOfYear y m d ≤ 364 + (if leapYear y then 1 else 0) := by
  cases hl : leapYear y <;>
    (interval_cases m <;> simp_all [dayOfYear, cumDays, monthLen] <;> omega)

theorem dayOfYear_lt (y m d m' d' : Nat) (hm1 : 1 ≤ m) (hm2 : m ≤ 12)
    (hd1 : 1 ≤ d) (hd2 : d ≤ monthLen y m) (hm1' : 1 ≤ m') (hm2' : m' ≤ 12)
    (hd1' : 1 ≤ d')
    (hlt : m < m' ∨ (m = m' ∧ d < d')) :
    dayOfYear y m d < dayOfYear y m' d' := by
  rcases hlt with hmm | ⟨rfl, hdd⟩
  · have key : cumDays m + (if 2 < m ∧ leapYear y then 1 else 0) + monthLen y m
        ≤ cumDays m' + (if 2 < m' ∧ leapYear y then 1 else 0) := by
      cases hl : leapYear y <;>
        (interval_cases m <;> interval_cases m' <;>
          simp_all [cumDays, monthLen])
    unfold dayOfYear
    omega
  · unfold dayOfYear
    omega

theorem yearFloor_mono (y y' : Nat) (hy : 1 ≤ y) (h : y ≤ y') :
    365 * (y - 1) + leapsBefore y ≤ 365 * (y' - 1) + leapsBefore y' := by
  induction y', h using Nat.le_induction with
  | base => exact le_refl _
  | succ n hn ih =>
    have hn1 : 1 ≤ n := le_trans hy hn
    have hstep := leapsBefore_succ n hn1
    have hbit : leapsBefore n ≤ leapsBefore (n + 1) := by
      rw [hstep]
      split <;> omega
    omega

theorem rataDie_lt_rataDie (y m d y' m' d' : Nat)
    (h1 : 1 ≤ y) (hm1 : 1 ≤ m) (hm2 : m ≤ 12) (hd1 : 1 ≤ d)
    (hd2 : d ≤ monthLen y m)
    (h1' : 1 ≤ y') (hm1' : 1 ≤ m') (hm2' : m' ≤ 12) (hd1' : 1 ≤ d')
    (hd2' : d' ≤ monthLen y' m')
    (hlex : y < y' ∨ (y = y' ∧ (m < m' ∨ (m = m' ∧ d < d')))) :
    rataDie y m d < rataDie y' m' d' := by
  rcases hlex with hy | ⟨rfl, hmd⟩
  · have hdoy := dayOfYear_le y m d hm1 hm2 hd1 hd2
    have hstep := leapsBefore_succ y h1
    have hmono := yearFloor_mono (y + 1) y' (by omega) (by omega)
    unfold rataDie
    cases hl : leapYear y <;> simp only [hl, if_true, if_false] at hdoy hstep <;>
      omega
  · have := dayOfYear_lt y m d m' d' hm1 hm2 hd1 hd2 hm1' hm2' hd1' hmd
    unfold rataDie
    omega

theorem parseEventDate_valid {s : String} {y m d : Nat}
    (h : parseEventDate s = some (y, m, d)) :
    1 ≤ y ∧ y ≤ 9999 ∧ 1 ≤ m ∧ m ≤ 12 ∧ 1 ≤ d ∧ d ≤ monthLen y m := by
  unfold parseEventDate at h
  split at h
  · split at h
    · split at h
      · next hcond =>
        injection h with h1
        injection h1 with hy h2
        injection h2 with hm hd
        subst hy; subst hm; subst hd
        obtain ⟨c1, c2, c3, c4, c5, c6⟩ := hcond
        refine ⟨by omega, by omega, by omega, by omega, by omega, ?_⟩
        generalize hN : monthLen _ _ = N at c6 ⊢
        omega
      · exact absurd h (by simp)
    · exact absurd h (by simp)
  · exact absurd h (by simp)

/-- C4 counterexample: with `now` at midnight of 2025-01-01, a record dated
01/01/2100 (more than 365 days in the future) sorts AFTER the undated-record
sentinel `now + 365 days`, so the stable sort places the undated record
BEFORE the dated one — the claim that every undated record comes after every
dated record fails. -/
theorem c4_sort_counterexample :
    sortEvents ((86400 * rataDie 2025 1 1 : Nat) : Int)
        [{ baseEvent with title := "far", date := "01/01/2100" },
         { baseEvent with title := "undated" }]
      = [{ baseEvent with title := "undated" },
         { baseEvent with title := "far", date := "01/01/2100" }]
  ∧ parseEventDate "" = none
  ∧ parseEventDate "01/01/2100" = some (2100, 1, 1) := by
  refine ⟨by decide, rfl, by decide⟩

/-- C4 amended: the chronological sort is a stable ascending sort by the key
`get_event_date` — the parsed date's midnight on the timeline when the date
parses as `DD/MM/YYYY`, and the sentinel `now + 365 days` otherwise — so the
output is a permutation of the input, sorted by key; dated records appear in
lexicographic (year, month, day) order; every undated or unparsable-date
record comes after every record whose key is strictly below the sentinel, in
particular after every dated record whose midnight is strictly earlier than
`now + 365 days` — no more than that: a dated record whose midnight ties
with or exceeds the sentinel need not come after the undated records — and
the undated records keep their original relative order. -/
theorem c4_sort_amended (now : Int) (l : List Event) :
    List.Perm (sortEvents now l) l
  ∧ (sortEvents now l).Pairwise
      (fun a b => getEventDate now a ≤ getEventDate now b)
  ∧ (∀ e : Event, parseEventDate e.date = none →
      getEventDate now e = now + 365 * 86400)
  ∧ (∀ i j : Fin (sortEvents now l).length,
      (parseEventDate ((sortEvents now l).get i).date).isNone = true →
      getEventDate now ((sortEvents now l).get j) < now + 365 * 86400 →
      (j : Nat) < (i : Nat))
  ∧ (sortEvents now l).filter (fun e => (parseEventDate e.date).isNone)
      = l.filter (fun e => (parseEventDate e.date).isNone)
  ∧ (∀ i j : Fin (sortEvents now l).length, (i : Nat) ≤ (j : Nat) →
      ∀ t u : Nat × Nat × Nat,
        parseEventDate ((sortEvents now l).get i).date = some t →
        parseEventDate ((sortEvents now l).get j).date = some u →
        lexLeDate t u) := by
  refine ⟨sortByKey_perm _ l, sortByKey_sorted _ l, ?_, ?_, ?_, ?_⟩
  · intro e h
    simp [getEventDate, h]
  · intro i j hU hD
    have hs : List.Pairwise (fun a b => getEventDate now a ≤ getEventDate now b)
        (sortEvents now l) := sortByKey_sorted (getEventDate now) l
    rw [List.pairwise_iff_get] at hs
    rw [Option.isNone_iff_eq_none] at hU
    have hki : getEventDate now ((sortEvents now l).get i)
        = now + 365 * 86400 := by
      simp only [getEventDate]
      rw [hU]
    rcases Nat.lt_trichotomy (j : Nat) (i : Nat) with h | h | h
    · exact h
    · exfalso
      have hij : i = j := Fin.ext h.symm
      rw [hij] at hki
      omega
    · exfalso
      have hle := hs i j h
      rw [hki] at hle
      omega
  · exact sortByKey_filter (getEventDate now)
      (fun e => (parseEventDate e.date).isNone) (now + 365 * 86400)
      (fun a ha => by
        rw [Option.isNone_iff_eq_none] at ha
        simp [getEventDate, ha]) l
  · intro i j hij t u hti htj
    obtain ⟨ty, tmo, td⟩ := t
    obtain ⟨uy, um, ud⟩ := u
    rcases Nat.eq_or_lt_of_le hij with heq | hlt
    · have hij2 : i = j := Fin.ext heq
      rw [hij2, htj] at hti
      injection hti with h1
      injection h1 with hy h2
      injection h2 with hm hd
      subst hy; subst hm; subst hd
      exact Or.inr ⟨rfl, Or.inr ⟨rfl, le_refl _⟩⟩
    · have hs : List.Pairwise
          (fun a b => getEventDate now a ≤ getEventDate now b)
          (sortEvents now l) := sortByKey_sorted (getEventDate now) l
      rw [List.pairwise_iff_get] at hs
      have hle := hs i j hlt
      have hki : getEventDate now ((sortEvents now l).get i)
          = ((dateSec ty tmo td : Nat) : Int) := by
        simp only [getEventDate]
        rw [hti]
      have hkj : getEventDate now ((sortEvents now l).get j)
          = ((dateSec uy um ud : Nat) : Int) := by
        simp only [getEventDate]
        rw [htj]
      rw [hki, hkj] at hle
      by_contra hno
      have hltlex : uy < ty ∨ (uy = ty ∧ (um < tmo ∨ (um = tmo ∧ ud < td))) := by
        simp only [lexLeDate] at hno
        omega
      have hvt := parseEventDate_valid hti
      have hvu := parseEventDate_valid htj
      obtain ⟨t1, t2, t3, t4, t5, t6⟩ := hvt
      obtain ⟨u1, u2, u3, u4, u5, u6⟩ := hvu
      have hrlt := rataDie_lt_rataDie uy um ud ty tmo td
        u1 u3 u4 u5 u6 t1 t3 t4 t5 t6 hltlex
      have hsec : dateSec uy um ud < dateSec ty tmo td := by
        unfold dateSec
        omega
      omega
